import Mathlib

/-!
# Verification of `cf-error-corpus`

A shallow embedding, in Lean 4, of the core logic of the `cf-error-corpus`
utility (`src/cf_error_corpus/cli.py` and `src/cf_error_corpus/validate.py`),
together with theorems settling the specification claims about it.

Strings from the Python code are modelled as `List Char` (Python `str` is a
sequence of unicode code points, as is `List Char` up to surrogate details
irrelevant here).  Python regular expressions used by the code are simple
enough (`[^/]+` segments, literal text, `\d+`) that each regex is embedded as
a deterministic recursive matcher; `\d` is modelled as an ASCII digit, the
only digits appearing in the URLs this tool consumes.  Network and
filesystem effects are modelled by explicit "world" records holding the
responses the code would observe.
-/

namespace CfErrorCorpus

/-! ## Character-list utilities shared by the embedded regex matchers -/

/-- `isPrefixChars p cs` is true iff `p` is a prefix of `cs` (literal text
matching at the current regex position). -/
def isPrefixChars : List Char → List Char → Bool
  | [], _ => true
  | _ :: _, [] => false
  | p :: ps, c :: cs => p = c && isPrefixChars ps cs

/-- Strip the literal prefix `p` from `cs`, or fail. -/
def stripPChars : List Char → List Char → Option (List Char)
  | [], cs => some cs
  | _ :: _, [] => none
  | p :: ps, c :: cs => if p = c then stripPChars ps cs else none

/-- The maximal leading run of non-`'/'` characters, and the remainder.
This is exactly what a greedy `([^/]+)` group followed by a literal `/`
can consume, since the class excludes `/` and so admits no backtracking. -/
def splitSeg : List Char → List Char × List Char
  | [] => ([], [])
  | c :: rest =>
    if c = '/' then ([], c :: rest)
    else
      let p := splitSeg rest
      (c :: p.1, p.2)

/-- ASCII digit test, modelling `\d` on the URLs this tool consumes. -/
def isDigitChar (c : Char) : Bool := '0' ≤ c && c ≤ '9'

/-- The maximal leading run of digits and the remainder: the text consumed
by a greedy `(\d+)` group at the end of a pattern. -/
def takeDigits : List Char → List Char × List Char
  | [] => ([], [])
  | c :: rest =>
    if isDigitChar c then
      let p := takeDigits rest
      (c :: p.1, p.2)
    else ([], c :: rest)

/-- Decimal value of a digit run, modelling Python `int(...)` on the
captured group. -/
def digitsToNat (ds : List Char) : Nat :=
  ds.foldl (fun a c => a * 10 + (c.toNat - '0'.toNat)) 0

/-- Substring containment, modelling Python's `in` operator on strings. -/
def containsSub (pat : List Char) : List Char → Bool
  | [] => isPrefixChars pat []
  | c :: rest => isPrefixChars pat (c :: rest) || containsSub pat rest

/-- Character-wise lower-casing, modelling `str.lower()` on the ASCII
check-run names this tool matches against. -/
def lowerChars (cs : List Char) : List Char := cs.map Char.toLower

/-! ### Lemmas about the utilities -/

theorem stripPChars_append (p rest : List Char) :
    stripPChars p (p ++ rest) = some rest := by
  induction p with
  | nil => rfl
  | cons c cs ih => simp [stripPChars, ih]

theorem stripPChars_sound {p cs rest : List Char}
    (h : stripPChars p cs = some rest) : cs = p ++ rest := by
  induction p generalizing cs with
  | nil => simpa [stripPChars] using h
  | cons a as ih =>
    cases cs with
    | nil => simp [stripPChars] at h
    | cons c cs' =>
      by_cases hac : a = c
      · subst hac
        simp only [stripPChars, if_pos rfl] at h
        simpa using ih h
      · simp [stripPChars, hac] at h

theorem splitSeg_append {o : List Char} (ho : ∀ c ∈ o, c ≠ '/')
    (rest : List Char) :
    splitSeg (o ++ '/' :: rest) = (o, '/' :: rest) := by
  induction o with
  | nil => simp [splitSeg]
  | cons c cs ih =>
    have hc : c ≠ '/' := ho c (by simp)
    have ih' := ih (fun d hd => ho d (by simp [hd]))
    simp [splitSeg, hc, ih']

theorem splitSeg_sound {cs a b : List Char} (h : splitSeg cs = (a, b)) :
    cs = a ++ b ∧ (∀ c ∈ a, c ≠ '/') ∧ (b = [] ∨ ∃ t, b = '/' :: t) := by
  induction cs generalizing a b with
  | nil =>
    simp only [splitSeg, Prod.mk.injEq] at h
    obtain ⟨rfl, rfl⟩ := h
    simp
  | cons c rest ih =>
    by_cases hc : c = '/'
    · subst hc
      simp only [splitSeg, if_pos rfl, Prod.mk.injEq] at h
      obtain ⟨rfl, rfl⟩ := h
      exact ⟨rfl, by simp, Or.inr ⟨rest, rfl⟩⟩
    · simp only [splitSeg, if_neg hc] at h
      rcases hp : splitSeg rest with ⟨a', b'⟩
      rw [hp] at h
      obtain ⟨rfl, rfl⟩ : c :: a' = a ∧ b' = b := by
        simpa [Prod.ext_iff] using h
      obtain ⟨h1, h2, h3⟩ := ih hp
      refine ⟨by simp [h1], ?_, h3⟩
      intro d hd
      rcases List.mem_cons.mp hd with rfl | hd'
      · exact hc
      · exact h2 d hd'

theorem takeDigits_append {n : List Char} (hn : ∀ c ∈ n, isDigitChar c = true)
    {rest : List Char} (hrest : ∀ c t, rest = c :: t → isDigitChar c = false) :
    takeDigits (n ++ rest) = (n, rest) := by
  induction n with
  | nil =>
    cases rest with
    | nil => rfl
    | cons c t => simp [takeDigits, hrest c t rfl]
  | cons c cs ih =>
    have hc : isDigitChar c = true := hn c (by simp)
    have ih' := ih (fun d hd => hn d (by simp [hd]))
    simp [takeDigits, hc, ih']

theorem takeDigits_sound {cs n rest : List Char}
    (h : takeDigits cs = (n, rest)) :
    cs = n ++ rest ∧ (∀ c ∈ n, isDigitChar c = true) := by
  induction cs generalizing n rest with
  | nil =>
    simp only [takeDigits, Prod.mk.injEq] at h
    obtain ⟨rfl, rfl⟩ := h
    simp
  | cons c t ih =>
    by_cases hc : isDigitChar c = true
    · simp only [takeDigits, if_pos hc] at h
      rcases hp : takeDigits t with ⟨n', r'⟩
      rw [hp] at h
      obtain ⟨rfl, rfl⟩ : c :: n' = n ∧ r' = rest := by
        simpa [Prod.ext_iff] using h
      obtain ⟨h1, h2⟩ := ih hp
      refine ⟨by simp [h1], ?_⟩
      intro d hd
      rcases List.mem_cons.mp hd with rfl | hd'
      · exact hc
      · exact h2 d hd'
    · simp only [takeDigits, if_neg hc, Prod.mk.injEq] at h
      obtain ⟨rfl, rfl⟩ := h
      simp

/-! ## `parse_github_pr_url` (cli.py lines 14-33)

The Python code runs
`re.match(r"https://github\.com/([^/]+)/([^/]+)/pull/(\d+)", url)`:
anchored at the start of the string only, with each `([^/]+)` group forced
to be the maximal slash-free run (the class excludes `/`, so no
backtracking is possible) and `(\d+)` capturing the maximal digit run at
that position.  On success it returns `(owner, repo, int(digits))`; on
failure it raises `ValueError`, modelled as `none`. -/

def ghPre : List Char := "https://github.com/".toList

def pullSeg : List Char := "/pull/".toList

/-- The embedded `parse_github_pr_url`.  `none` models the `ValueError`
raised when the regex does not match at the start of the string. -/
def parse_github_pr_url (cs : List Char) : Option (List Char × List Char × Nat) :=
  match stripPChars ghPre cs with
  | none => none
  | some cs1 =>
    let po := splitSeg cs1
    if po.1 = [] then none
    else
      match po.2 with
      | '/' :: cs3 =>
        let pr := splitSeg cs3
        if pr.1 = [] then none
        else
          match stripPChars pullSeg pr.2 with
          | none => none
          | some cs5 =>
            let pn := takeDigits cs5
            if pn.1 = [] then none
            else some (po.1, pr.1, digitsToNat pn.1)
      | _ => none

/-- The text a PR URL matching the pattern from the start decomposes into:
the fixed prefix, an owner segment, a repo segment, `/pull/`, a digit run,
and an arbitrary remainder (the regex is not anchored at the end). -/
def ghUrl (o r n rest : List Char) : List Char :=
  ghPre ++ o ++ '/' :: r ++ pullSeg ++ n ++ rest

theorem takeDigits_append_digits {n : List Char}
    (hn : ∀ c ∈ n, isDigitChar c = true) (rest : List Char) :
    takeDigits (n ++ rest) = (n ++ (takeDigits rest).1, (takeDigits rest).2) := by
  induction n with
  | nil => simp
  | cons c cs ih =>
    have hc : isDigitChar c = true := hn c (by simp)
    have ih' := ih (fun d hd => hn d (by simp [hd]))
    simp [takeDigits, hc, ih']

theorem takeDigits_head_not_digit {rest : List Char}
    (hrest : ∀ c t, rest = c :: t → isDigitChar c = false) :
    takeDigits rest = ([], rest) := by
  cases rest with
  | nil => rfl
  | cons c t => simp [takeDigits, hrest c t rfl]

/-- Because the regex is not anchored at the end, matching succeeds for an
arbitrary remainder `rest`; the captured number is the digit run `n`
extended by any leading digits of `rest`. -/
theorem parse_github_pr_url_complete_any {o r n : List Char} (rest : List Char)
    (ho : o ≠ []) (ho' : ∀ c ∈ o, c ≠ '/')
    (hr : r ≠ []) (hr' : ∀ c ∈ r, c ≠ '/')
    (hn : n ≠ []) (hn' : ∀ c ∈ n, isDigitChar c = true) :
    parse_github_pr_url (ghUrl o r n rest) =
      some (o, r, digitsToNat (n ++ (takeDigits rest).1)) := by
  have h1 : stripPChars ghPre (ghPre ++ (o ++ '/' :: (r ++ pullSeg ++ n ++ rest))) =
      some (o ++ '/' :: (r ++ pullSeg ++ n ++ rest)) :=
    stripPChars_append _ _
  have h2 : splitSeg (o ++ '/' :: (r ++ pullSeg ++ n ++ rest)) =
      (o, '/' :: (r ++ pullSeg ++ n ++ rest)) :=
    splitSeg_append ho' _
  have h3 : splitSeg (r ++ '/' :: ("pull/".toList ++ n ++ rest)) =
      (r, '/' :: ("pull/".toList ++ n ++ rest)) :=
    splitSeg_append hr' _
  have h4 : stripPChars pullSeg ('/' :: ("pull/".toList ++ n ++ rest)) =
      some (n ++ rest) := by
    have e : ('/' :: ("pull/".toList ++ n ++ rest)) = pullSeg ++ (n ++ rest) := by
      simp [pullSeg]
    rw [e]
    exact stripPChars_append _ _
  have h5 : takeDigits (n ++ rest) = (n ++ (takeDigits rest).1, (takeDigits rest).2) :=
    takeDigits_append_digits hn' rest
  have hne : n ++ (takeDigits rest).1 ≠ [] := by
    intro hcontra
    exact hn (List.append_eq_nil.mp hcontra).1
  unfold ghUrl parse_github_pr_url
  rw [show ghPre ++ o ++ '/' :: r ++ pullSeg ++ n ++ rest =
      ghPre ++ (o ++ '/' :: (r ++ pullSeg ++ n ++ rest)) by simp]
  rw [h1]
  simp only [h2, if_neg ho]
  rw [show r ++ pullSeg ++ n ++ rest =
      r ++ '/' :: ("pull/".toList ++ n ++ rest) by simp [pullSeg]]
  simp only [h3, if_neg hr, h4, h5, if_neg hne]

/-- When the remainder does not start with a digit, the captured number is
exactly `n`. -/
theorem parse_github_pr_url_complete {o r n rest : List Char}
    (ho : o ≠ []) (ho' : ∀ c ∈ o, c ≠ '/')
    (hr : r ≠ []) (hr' : ∀ c ∈ r, c ≠ '/')
    (hn : n ≠ []) (hn' : ∀ c ∈ n, isDigitChar c = true)
    (hrest : ∀ c t, rest = c :: t → isDigitChar c = false) :
    parse_github_pr_url (ghUrl o r n rest) = some (o, r, digitsToNat n) := by
  have h := parse_github_pr_url_complete_any rest ho ho' hr hr' hn hn'
  rw [takeDigits_head_not_digit hrest] at h
  simpa using h

theorem parse_github_pr_url_sound {cs : List Char}
    {o r : List Char} {k : Nat}
    (h : parse_github_pr_url cs = some (o, r, k)) :
    ∃ n rest, o ≠ [] ∧ (∀ c ∈ o, c ≠ '/') ∧ r ≠ [] ∧ (∀ c ∈ r, c ≠ '/') ∧
      n ≠ [] ∧ (∀ c ∈ n, isDigitChar c = true) ∧ k = digitsToNat n ∧
      cs = ghUrl o r n rest := by
  unfold parse_github_pr_url at h
  rcases h1 : stripPChars ghPre cs with _ | cs1
  · rw [h1] at h; exact absurd h (by simp)
  rw [h1] at h
  simp only at h
  rcases h2 : splitSeg cs1 with ⟨a, b⟩
  rw [h2] at h
  by_cases ha : a = []
  · rw [if_pos ha] at h; exact absurd h (by simp)
  rw [if_neg ha] at h
  rcases b with _ | ⟨c, cs3⟩
  · exact absurd h (by simp)
  by_cases hc : c = '/'
  swap
  · exfalso
    revert h
    cases c
    simp_all
  subst hc
  simp only at h
  rcases h3 : splitSeg cs3 with ⟨a2, b2⟩
  rw [h3] at h
  by_cases ha2 : a2 = []
  · rw [if_pos ha2] at h; exact absurd h (by simp)
  rw [if_neg ha2] at h
  rcases h4 : stripPChars pullSeg b2 with _ | cs5
  · rw [h4] at h; exact absurd h (by simp)
  rw [h4] at h
  simp only at h
  rcases h5 : takeDigits cs5 with ⟨nd, rest⟩
  rw [h5] at h
  by_cases hnd : nd = []
  · rw [if_pos hnd] at h; exact absurd h (by simp)
  rw [if_neg hnd] at h
  obtain ⟨rfl, rfl, rfl⟩ : a = o ∧ a2 = r ∧ digitsToNat nd = k := by
    simpa [Prod.ext_iff] using h
  obtain ⟨e1, s1, _⟩ := splitSeg_sound h2
  obtain ⟨e2, s2, _⟩ := splitSeg_sound h3
  have e4 := stripPChars_sound h4
  obtain ⟨e5, d5⟩ := takeDigits_sound h5
  refine ⟨nd, rest, ha, s1, ha2, s2, hnd, d5, rfl, ?_⟩
  have ecs : cs = ghPre ++ cs1 := stripPChars_sound h1
  rw [ecs, e1, e2, e4, e5]
  simp [ghUrl]

/-- C3: for every string that matches
`https://github.com/<owner>/<repo>/pull/<number>` from the start (owner and
repo non-empty slash-free segments, number a non-empty digit sequence,
followed by an arbitrary remainder not extending the digit run),
`parse_github_pr_url` returns exactly that owner, that repo, and that
number as an integer; for every string that does not match the pattern from
the start it fails with `ValueError` (modelled as `none`). -/
theorem parse_github_pr_url_spec_C3 :
    (∀ o r n rest : List Char, o ≠ [] → (∀ c ∈ o, c ≠ '/') →
       r ≠ [] → (∀ c ∈ r, c ≠ '/') →
       n ≠ [] → (∀ c ∈ n, isDigitChar c = true) →
       (∀ c t, rest = c :: t → isDigitChar c = false) →
       parse_github_pr_url (ghUrl o r n rest) = some (o, r, digitsToNat n))
  ∧ (∀ cs : List Char,
       (¬ ∃ o r n rest : List Char, o ≠ [] ∧ (∀ c ∈ o, c ≠ '/') ∧
          r ≠ [] ∧ (∀ c ∈ r, c ≠ '/') ∧ n ≠ [] ∧
          (∀ c ∈ n, isDigitChar c = true) ∧ cs = ghUrl o r n rest) →
       parse_github_pr_url cs = none) := by
  constructor
  · intro o r n rest ho ho' hr hr' hn hn' hrest
    exact parse_github_pr_url_complete ho ho' hr hr' hn hn' hrest
  · intro cs hno
    rcases hp : parse_github_pr_url cs with _ | ⟨o, r, k⟩
    · rfl
    · exfalso
      obtain ⟨n, rest, ho, ho', hr, hr', hn, hn', _, hcs⟩ :=
        parse_github_pr_url_sound hp
      exact hno ⟨o, r, n, rest, ho, ho', hr, hr', hn, hn', hcs⟩

theorem parse_github_pr_url_spec_C3_witness :
    parse_github_pr_url
        (ghUrl "conda-forge".toList "nomad-feedstock".toList "52".toList []) =
      some ("conda-forge".toList, "nomad-feedstock".toList, digitsToNat "52".toList)
  ∧ parse_github_pr_url "https://github.com/conda-forge/nomad-feedstock".toList =
      none :=
  ⟨parse_github_pr_url_spec_C3.1 _ _ _ _ (by decide) (by decide) (by decide)
      (by decide) (by decide) (by decide) (fun c t h => List.noConfusion h),
   parse_github_pr_url_spec_C3.2 _ (by
      intro hex
      obtain ⟨o, r, n, rest, ho, ho', hr, hr', hn, hn', hcs⟩ := hex
      have hsome := parse_github_pr_url_complete_any rest ho ho' hr hr' hn hn'
      rw [← hcs] at hsome
      have hnone :
          parse_github_pr_url
            "https://github.com/conda-forge/nomad-feedstock".toList = none := by
        decide
      rw [hnone] at hsome
      cases hsome)⟩

/-- C4 counterexample: the regex in `parse_github_pr_url` is anchored only
at the start of the string, so a PR URL with extra path segments, a query
string, or a trailing slash is accepted (returning the embedded reference)
rather than failing with `ValueError` as the claim states. -/
theorem parse_github_pr_url_C4_counterexample :
    parse_github_pr_url "https://github.com/owner/repo/pull/52/files".toList =
      some ("owner".toList, "repo".toList, 52)
  ∧ parse_github_pr_url "https://github.com/owner/repo/pull/52?tab=checks".toList =
      some ("owner".toList, "repo".toList, 52)
  ∧ parse_github_pr_url "https://github.com/owner/repo/pull/52/".toList =
      some ("owner".toList, "repo".toList, 52) := by
  refine ⟨by decide, by decide, by decide⟩

/-- C4 amended: appending a trailing slash, a query string, or extra path
segments to an otherwise-valid PR URL does not cause failure — the regex is
anchored only at the start, so the suffix is ignored and
`parse_github_pr_url` returns the same owner, repo, and number as for the
clean URL. -/
theorem parse_github_pr_url_suffix_ignored (o r n suffix : List Char) (c : Char)
    (hc : c = '/' ∨ c = '?')
    (ho : o ≠ []) (ho' : ∀ d ∈ o, d ≠ '/')
    (hr : r ≠ []) (hr' : ∀ d ∈ r, d ≠ '/')
    (hn : n ≠ []) (hn' : ∀ d ∈ n, isDigitChar d = true) :
    parse_github_pr_url (ghUrl o r n (c :: suffix)) = some (o, r, digitsToNat n)
  ∧ parse_github_pr_url (ghUrl o r n (c :: suffix)) =
      parse_github_pr_url (ghUrl o r n []) := by
  have hcd : ∀ d t, (c :: suffix) = d :: t → isDigitChar d = false := by
    intro d t hdt
    injection hdt with h1 _
    subst h1
    rcases hc with rfl | rfl
    · decide
    · decide
  have h1 := parse_github_pr_url_complete ho ho' hr hr' hn hn' hcd
  have h2 := @parse_github_pr_url_complete o r n [] ho ho' hr hr' hn hn'
    (fun d t h => List.noConfusion h)
  exact ⟨h1, by rw [h1, h2]⟩

theorem parse_github_pr_url_suffix_ignored_witness :
    parse_github_pr_url
        (ghUrl "owner".toList "repo".toList "52".toList ('/' :: "files".toList)) =
      some ("owner".toList, "repo".toList, digitsToNat "52".toList) :=
  (parse_github_pr_url_suffix_ignored _ _ _ _ '/' (Or.inl rfl) (by decide)
    (by decide) (by decide) (by decide) (by decide) (by decide)).1

/-! ## `find_failed_azure_builds` (cli.py lines 168-205)

A check run from the GitHub API is modelled by the three fields the
function reads: `run.get("name", "")` (a string, defaulting to empty),
`run.get("conclusion")` and `run.get("app", {}).get("slug")` (both possibly
absent, hence `Option`).  The Python function iterates the runs in order,
skips runs whose conclusion is not `"failure"` or whose app slug is not
`"azure-pipelines"`, classifies the rest by case-insensitive substring
match on the name, fills each of the two platform buckets (`"linux"`,
`"osx"`) at most once, and breaks out of the loop once both are filled.
The returned Python dict has at most the two keys `"linux"` and `"osx"`,
modelled as a pair of `Option CheckRun` buckets. -/

structure CheckRun where
  name : String
  conclusion : Option String
  appSlug : Option String
deriving DecidableEq, Repr

/-- The two filters at the top of the loop body: conclusion `"failure"`
and app slug `"azure-pipelines"`. -/
def isAzureFailure (r : CheckRun) : Bool :=
  r.conclusion = some "failure" && r.appSlug = some "azure-pipelines"

/-- `"linux" in name.lower()`. -/
def nameMatchesLinux (r : CheckRun) : Bool :=
  containsSub "linux".toList (lowerChars r.name.toList)

/-- `"osx" in name.lower() or "macos" in name.lower()`. -/
def nameMatchesOsx (r : CheckRun) : Bool :=
  containsSub "osx".toList (lowerChars r.name.toList) ||
    containsSub "macos".toList (lowerChars r.name.toList)

/-- The Python dict returned by `find_failed_azure_builds`: its only
possible keys are `"linux"` and `"osx"`, each present at most once. -/
structure FailedBuilds where
  linux : Option CheckRun
  osx : Option CheckRun
deriving DecidableEq, Repr

/-- The loop of `find_failed_azure_builds`, with the two dict entries as
accumulators.  The final branch models `if len(failed_builds) >= 2: break`. -/
def findFailedLoop : List CheckRun → Option CheckRun → Option CheckRun → FailedBuilds
  | [], l, o => ⟨l, o⟩
  | r :: rest, l, o =>
    if isAzureFailure r then
      let l' := if nameMatchesLinux r && l.isNone then some r else l
      let o' := if nameMatchesOsx r && o.isNone then some r else o
      if l'.isSome && o'.isSome then ⟨l', o'⟩
      else findFailedLoop rest l' o'
    else findFailedLoop rest l o

def find_failed_azure_builds (runs : List CheckRun) : FailedBuilds :=
  findFailedLoop runs none none

/-- The selection predicate for the linux bucket, read off the loop body. -/
def selLinux (r : CheckRun) : Bool := isAzureFailure r && nameMatchesLinux r

/-- The selection predicate for the osx bucket, read off the loop body. -/
def selOsx (r : CheckRun) : Bool := isAzureFailure r && nameMatchesOsx r

theorem findFailedLoop_spec (runs : List CheckRun) :
    ∀ l o : Option CheckRun,
      (findFailedLoop runs l o).linux =
        (match l with | some x => some x | none => runs.find? selLinux)
    ∧ (findFailedLoop runs l o).osx =
        (match o with | some x => some x | none => runs.find? selOsx) := by
  induction runs with
  | nil =>
    intro l o
    cases l <;> cases o <;> simp [findFailedLoop]
  | cons r rest ih =>
    intro l o
    by_cases hf : isAzureFailure r
    · by_cases hl : nameMatchesLinux r
      · by_cases ho : nameMatchesOsx r
        · -- r matches both platforms
          cases l <;> cases o <;>
            simp_all [findFailedLoop, List.find?, selLinux, selOsx, ih]
        · cases l <;> cases o <;>
            simp_all [findFailedLoop, List.find?, selLinux, selOsx, ih]
      · by_cases ho : nameMatchesOsx r
        · cases l <;> cases o <;>
            simp_all [findFailedLoop, List.find?, selLinux, selOsx, ih]
        · cases l <;> cases o <;>
            simp_all [findFailedLoop, List.find?, selLinux, selOsx, ih]
    · cases l <;> cases o <;>
        simp_all [findFailedLoop, List.find?, selLinux, selOsx, ih]

theorem find_failed_azure_builds_eq_find? (runs : List CheckRun) :
    (find_failed_azure_builds runs).linux = runs.find? selLinux
  ∧ (find_failed_azure_builds runs).osx = runs.find? selOsx := by
  have h := findFailedLoop_spec runs none none
  exact ⟨h.1, h.2⟩

/-- C2: `find_failed_azure_builds` fills each of the two platform buckets
(`"linux"`, `"osx"`) with at most one run (the bucket type), every selected
run has conclusion `"failure"` and app slug `"azure-pipelines"` (so a run
with any other conclusion or slug is never selected), and each bucket holds
the first run in input order that passes the failure/provider filters and
the platform's case-insensitive substring test (`List.find?` of the
selection predicate). -/
theorem find_failed_azure_builds_spec_C2 (runs : List CheckRun) :
    ((find_failed_azure_builds runs).linux = runs.find? selLinux
      ∧ (find_failed_azure_builds runs).osx = runs.find? selOsx)
  ∧ (∀ r, (find_failed_azure_builds runs).linux = some r →
        r.conclusion = some "failure" ∧ r.appSlug = some "azure-pipelines"
          ∧ nameMatchesLinux r = true)
  ∧ (∀ r, (find_failed_azure_builds runs).osx = some r →
        r.conclusion = some "failure" ∧ r.appSlug = some "azure-pipelines"
          ∧ nameMatchesOsx r = true) := by
  obtain ⟨hl, ho⟩ := find_failed_azure_builds_eq_find? runs
  refine ⟨⟨hl, ho⟩, ?_, ?_⟩
  · intro r hr
    rw [hl] at hr
    have := List.find?_some hr
    simpa [selLinux, isAzureFailure, and_assoc] using this
  · intro r hr
    rw [ho] at hr
    have := List.find?_some hr
    simpa [selOsx, isAzureFailure, and_assoc] using this

def demoLinuxRun : CheckRun := ⟨"linux_64", some "failure", some "azure-pipelines"⟩

def demoOsxRun : CheckRun := ⟨"osx_64", some "failure", some "azure-pipelines"⟩

def demoRuns : List CheckRun :=
  [demoLinuxRun, demoOsxRun,
   ⟨"other", some "success", some "azure-pipelines"⟩,
   ⟨"not-azure", some "failure", some "other-ci"⟩]

theorem find_failed_azure_builds_spec_C2_witness :
    (demoLinuxRun.conclusion = some "failure"
      ∧ demoLinuxRun.appSlug = some "azure-pipelines"
      ∧ nameMatchesLinux demoLinuxRun = true)
  ∧ (demoOsxRun.conclusion = some "failure"
      ∧ demoOsxRun.appSlug = some "azure-pipelines"
      ∧ nameMatchesOsx demoOsxRun = true) :=
  ⟨(find_failed_azure_builds_spec_C2 demoRuns).2.1 demoLinuxRun (by decide),
   (find_failed_azure_builds_spec_C2 demoRuns).2.2 demoOsxRun (by decide)⟩

/-- C10: the two platform buckets are not mutually exclusive — a single
failing azure-pipelines run whose name contains both `"linux"` and `"osx"`
(or `"macos"`), reached while both buckets are still unfilled, is stored in
both buckets of the returned mapping. -/
theorem find_failed_azure_builds_both_platforms_C10
    (pre post : List CheckRun) (r : CheckRun)
    (hpre : ∀ x ∈ pre, selLinux x = false ∧ selOsx x = false)
    (hfail : r.conclusion = some "failure")
    (hslug : r.appSlug = some "azure-pipelines")
    (hlin : nameMatchesLinux r = true) (hosx : nameMatchesOsx r = true) :
    (find_failed_azure_builds (pre ++ r :: post)).linux = some r
  ∧ (find_failed_azure_builds (pre ++ r :: post)).osx = some r := by
  obtain ⟨hl, ho⟩ := find_failed_azure_builds_eq_find? (pre ++ r :: post)
  have hrl : selLinux r = true := by
    simp [selLinux, isAzureFailure, hfail, hslug, hlin]
  have hro : selOsx r = true := by
    simp [selOsx, isAzureFailure, hfail, hslug, hosx]
  have hfl : (pre ++ r :: post).find? selLinux = some r := by
    rw [List.find?_append]
    have : pre.find? selLinux = none :=
      List.find?_eq_none.mpr (fun x hx => by simp [(hpre x hx).1])
    simp [this, List.find?_cons, hrl]
  have hfo : (pre ++ r :: post).find? selOsx = some r := by
    rw [List.find?_append]
    have : pre.find? selOsx = none :=
      List.find?_eq_none.mpr (fun x hx => by simp [(hpre x hx).2])
    simp [this, List.find?_cons, hro]
  exact ⟨hl.trans hfl, ho.trans hfo⟩

theorem find_failed_azure_builds_both_platforms_C10_witness :
    (find_failed_azure_builds
        ([⟨"docs", some "failure", some "azure-pipelines"⟩] ++
          (⟨"linux_64_and_osx_64", some "failure", some "azure-pipelines"⟩ : CheckRun)
          :: [])).linux =
      some ⟨"linux_64_and_osx_64", some "failure", some "azure-pipelines"⟩
  ∧ (find_failed_azure_builds
        ([⟨"docs", some "failure", some "azure-pipelines"⟩] ++
          (⟨"linux_64_and_osx_64", some "failure", some "azure-pipelines"⟩ : CheckRun)
          :: [])).osx =
      some ⟨"linux_64_and_osx_64", some "failure", some "azure-pipelines"⟩ :=
  find_failed_azure_builds_both_platforms_C10 _ _ _ (by decide) (by decide)
    (by decide) (by decide) (by decide)

/-! ## `extract_azure_log_url_from_details` (cli.py lines 208-239)

The Python code first runs `re.search(r"buildId=(\d+)", details_url)`:
scanning left to right, it captures the digit run after the first
occurrence of the literal `buildId=` that is followed by at least one
digit.  It then runs
`re.match(r"https://dev\.azure\.com/([^/]+)/([^/]+)/_build", details_url)`
and, when both succeed, returns the log-list API URL
`https://dev.azure.com/{org}/{project}/_apis/build/builds/{build_id}/logs`.
Nothing else — in particular no `jobId` query parameter — is extracted. -/

/-- The embedded `re.search(r"buildId=(\d+)", ...)`: the digit run captured
at the first position where `buildId=` is followed by a digit. -/
def searchBuildId : List Char → Option (List Char)
  | [] => none
  | c :: rest =>
    if isPrefixChars "buildId=".toList (c :: rest) then
      let ds := takeDigits ((c :: rest).drop 8)
      if ds.1 = [] then searchBuildId rest else some ds.1
    else searchBuildId rest

/-- The embedded
`re.match(r"https://dev\.azure\.com/([^/]+)/([^/]+)/_build", ...)`:
the org and project segments when the URL has the expected prefix shape. -/
def matchAzureOrgProject (cs : List Char) : Option (List Char × List Char) :=
  match stripPChars "https://dev.azure.com/".toList cs with
  | none => none
  | some cs1 =>
    let po := splitSeg cs1
    if po.1 = [] then none
    else
      match po.2 with
      | '/' :: cs3 =>
        let pp := splitSeg cs3
        if pp.1 = [] then none
        else if isPrefixChars "/_build".toList pp.2 then some (po.1, pp.1)
        else none
      | _ => none

/-- The embedded `extract_azure_log_url_from_details`. -/
def extract_azure_log_url_from_details (cs : List Char) : Option (List Char) :=
  match searchBuildId cs with
  | none => none
  | some buildId =>
    match matchAzureOrgProject cs with
    | none => none
    | some (org, project) =>
      some ("https://dev.azure.com/".toList ++ org ++ '/' :: project ++
        "/_apis/build/builds/".toList ++ buildId ++ "/logs".toList)

/-- The details URL the repository's own test suite feeds the details-URL
parser (`test_parse_azure_details_url`), which asserts that the `jobId`
query parameter is extracted and returned alongside org/project/buildId. -/
def testDetailsUrl : List Char :=
  ("https://dev.azure.com/conda-forge/84710dde-1620-425b-80d0-4cf5baca359d" ++
   "/_build/results?buildId=1460232&view=logs" ++
   "&jobId=7b6f2c87-f3a7-5133-8d84-7c03a75d9dfc").toList

/-- The same URL without the `jobId` parameter. -/
def testDetailsUrlNoJob : List Char :=
  ("https://dev.azure.com/conda-forge/84710dde-1620-425b-80d0-4cf5baca359d" ++
   "/_build/results?buildId=1460232&view=logs").toList

/-- C5: evaluation of `extract_azure_log_url_from_details` at the details
URL used by the repository's own tests.  The function returns only the
log-list API URL built from org, project and buildId; the `jobId` query
parameter is never extracted — the output contains no trace of it and is
identical to the output for the same URL without `jobId`.  This contradicts
the claim (and the repository's test suite, which asserts that the
details-URL parser returns the jobId as well). -/
theorem extract_azure_log_url_jobid_dropped_C5 :
    extract_azure_log_url_from_details testDetailsUrl =
      some ("https://dev.azure.com/conda-forge/" ++
        "84710dde-1620-425b-80d0-4cf5baca359d" ++
        "/_apis/build/builds/1460232/logs").toList
  ∧ extract_azure_log_url_from_details testDetailsUrl =
      extract_azure_log_url_from_details testDetailsUrlNoJob
  ∧ containsSub "jobId".toList
      ((extract_azure_log_url_from_details testDetailsUrl).getD []) = false := by
  refine ⟨by decide, by decide, by decide⟩

/-! ## `get_azure_build_logs` (cli.py lines 242-276)

The network is modelled by a world record: `listing` is the parsed JSON
list `data.get("value", [])` of the initial request (`none` models any
exception in the outer `try` before the loop — a failed request or
unparseable body), and `fetch url` is the result of `download_content url`
(`none` models the exception swallowed by the inner `try`).  A log
descriptor carries its optional `url` field; Python's `if log_url:` also
skips a present-but-empty url string. -/

structure LogEntry where
  url : Option String
deriving DecidableEq, Repr

structure AzureWorld where
  listing : Option (List LogEntry)
  fetch : String → Option String

/-- The content a segment contributes: present exactly when the descriptor
has a non-empty `url` whose download succeeds. -/
def segmentFetch (w : AzureWorld) (l : LogEntry) : Option String :=
  match l.url with
  | none => none
  | some u => if u = "" then none else w.fetch u

/-- The download loop of `get_azure_build_logs`, accumulating
`logs_content` exactly as the Python `for` loop appends to it. -/
def collectLogs (w : AzureWorld) : List LogEntry → List String → List String
  | [], acc => acc
  | l :: rest, acc =>
    match l.url with
    | none => collectLogs w rest acc
    | some u =>
      if u = "" then collectLogs w rest acc
      else
        match w.fetch u with
        | none => collectLogs w rest acc
        | some c => collectLogs w rest (acc ++ [c])

/-- The embedded `get_azure_build_logs`. -/
def get_azure_build_logs (w : AzureWorld) : Option String :=
  match w.listing with
  | none => none
  | some logs =>
    let cs := collectLogs w logs []
    if cs.isEmpty then none else some (String.intercalate "\n" cs)

theorem collectLogs_eq_filterMap (w : AzureWorld) (logs : List LogEntry) :
    ∀ acc, collectLogs w logs acc = acc ++ logs.filterMap (segmentFetch w) := by
  induction logs with
  | nil => intro acc; simp [collectLogs]
  | cons l rest ih =>
    intro acc
    rcases hu : l.url with _ | u
    · simp [collectLogs, hu, segmentFetch, ih]
    · by_cases he : u = ""
      · simp [collectLogs, hu, he, segmentFetch, ih]
      · rcases hf : w.fetch u with _ | c
        · simp [collectLogs, hu, he, hf, segmentFetch, ih]
        · simp [collectLogs, hu, he, hf, segmentFetch, ih]

/-- C1: `get_azure_build_logs` returns `none` exactly when the initial
listing request fails or no log segment downloads successfully; otherwise
it returns the newline-joined concatenation, in listing order, of exactly
the contents of the segments that downloaded successfully — failed segments
are skipped silently and the remaining segments are still included. -/
theorem get_azure_build_logs_spec_C1 (w : AzureWorld) :
    (get_azure_build_logs w = none ↔
       w.listing = none ∨
         ∃ logs, w.listing = some logs ∧ logs.filterMap (segmentFetch w) = [])
  ∧ (∀ logs, w.listing = some logs → logs.filterMap (segmentFetch w) ≠ [] →
       get_azure_build_logs w =
         some (String.intercalate "\n" (logs.filterMap (segmentFetch w)))) := by
  constructor
  · rcases hl : w.listing with _ | logs
    · simp [get_azure_build_logs, hl]
    · rw [get_azure_build_logs]
      rw [hl]
      simp only [collectLogs_eq_filterMap w logs [], List.nil_append]
      by_cases hc : logs.filterMap (segmentFetch w) = []
      · refine ⟨fun _ => Or.inr ⟨logs, rfl, hc⟩, fun _ => ?_⟩
        rw [hc]
        rfl
      · rw [if_neg (by simpa [List.isEmpty_iff] using hc)]
        refine ⟨fun h => (by cases h), ?_⟩
        rintro (h | ⟨logs2, hs, he⟩)
        · cases h
        · injection hs with hs2
          subst hs2
          exact absurd he hc
  · intro logs hlog hne
    rw [get_azure_build_logs, hlog]
    simp only [collectLogs_eq_filterMap w logs [], List.nil_append]
    simp [List.isEmpty_iff, hne]

theorem get_azure_build_logs_spec_C1_witness :
    get_azure_build_logs
        ⟨some [⟨some "u1"⟩, ⟨some "bad"⟩, ⟨none⟩, ⟨some ""⟩, ⟨some "u2"⟩],
         fun u => if u = "u1" then some "first log" else
           if u = "u2" then some "second log" else none⟩ =
      some "first log\nsecond log" := by
  have h := (get_azure_build_logs_spec_C1
      ⟨some [⟨some "u1"⟩, ⟨some "bad"⟩, ⟨none⟩, ⟨some ""⟩, ⟨some "u2"⟩],
       fun u => if u = "u1" then some "first log" else
         if u = "u2" then some "second log" else none⟩).2
      [⟨some "u1"⟩, ⟨some "bad"⟩, ⟨none⟩, ⟨some ""⟩, ⟨some "u2"⟩] rfl
      (by decide)
  simpa using h

/-! ## Corpus directory naming (cli.py lines 121-124 and 324-325)

`main` computes `feedstock_name = repo.replace("-feedstock", "")` (the
comment above that line reads "remove -feedstock suffix if present") and
`create_corpus_entry` names the entry directory
`f"{feedstock_name}-{pr_number}-{build_name}"`.  Python's `str.replace`
removes every non-overlapping occurrence of the pattern, scanning left to
right, not just a trailing suffix. -/

/-- The embedded `repo.replace("-feedstock", "")`.  The fuel argument is a
structural-recursion device only: each step consumes at least one
character, so fuel `≥ length` never runs out. -/
def removeFeedstockFuel : Nat → List Char → List Char
  | 0, cs => cs
  | _ + 1, [] => []
  | fuel + 1, c :: rest =>
    if isPrefixChars "-feedstock".toList (c :: rest) then
      removeFeedstockFuel fuel ((c :: rest).drop 10)
    else c :: removeFeedstockFuel fuel rest

/-- `feedstock_name` as computed by `main` (cli.py line 325). -/
def feedstockNameOfRepo (repo : List Char) : List Char :=
  removeFeedstockFuel repo.length repo

/-- The naming rule the claim and the code's own comment ("remove
-feedstock suffix if present") describe: strip one trailing `-feedstock`
and carry the rest of the repository name unchanged. -/
def stripFeedstockSuffix (repo : List Char) : List Char :=
  if List.isSuffixOf "-feedstock".toList repo then
    repo.take (repo.length - 10)
  else repo

/-- The entry directory name `f"{feedstock_name}-{pr_number}-{build_name}"`
built by `create_corpus_entry` (cli.py line 122). -/
def folder_name (feedstock : List Char) (pr : Nat) (build : List Char) : List Char :=
  feedstock ++ '-' :: (Nat.repr pr).toList ++ '-' :: build

/-- C9: evaluation at the failing input `repo = "foo-feedstock-bar"`.
`str.replace` removes the interior occurrence of `-feedstock`, so the code
names the corpus directory `foo-bar-52-linux_64`, while suffix-only
stripping — what the claim and the code's own comment describe — would
leave the repository name unchanged and name it
`foo-feedstock-bar-52-linux_64`. -/
theorem feedstock_name_interior_occurrence_C9 :
    feedstockNameOfRepo "foo-feedstock-bar".toList = "foo-bar".toList
  ∧ stripFeedstockSuffix "foo-feedstock-bar".toList = "foo-feedstock-bar".toList
  ∧ folder_name (feedstockNameOfRepo "foo-feedstock-bar".toList) 52
      "linux_64".toList = "foo-bar-52-linux_64".toList
  ∧ folder_name (stripFeedstockSuffix "foo-feedstock-bar".toList) 52
      "linux_64".toList = "foo-feedstock-bar-52-linux_64".toList := by
  refine ⟨by decide, by decide, by decide, by decide⟩

/-! ## The metadata validator (validate.py)

`validate_input_yml` loads a file with `yaml.safe_load` and validates the
result against the pydantic model `InputYaml`:

* `source : HttpUrl` — must parse as an absolute URL with an http/https
  scheme and a host;
* `input : str` with `pattern=r"^error\.log$"` — must equal the literal
  string `error.log`;
* `most_minimal_output`, `expected_output : str` with `min_length=1` —
  a pure length check, no trimming.

The loaded document is modelled by its four fields, `none` marking an
absent key (pydantic reports `field required`).  A pydantic
`ValidationError` lists every violated field; the function maps it to
`(False, str(e))`, a read/parse failure to `(False, "Error reading file: ...")`,
and success to `(True, "")`. -/

structure InputYamlData where
  source : Option String
  input : Option String
  most_minimal_output : Option String
  expected_output : Option String
deriving DecidableEq, Repr

/-- Modelled from pydantic's `HttpUrl` (an external library): accepted
exactly when the string has an explicit `http://` or `https://` scheme
followed by a non-empty host part. -/
def isHttpUrl (cs : List Char) : Bool :=
  match stripPChars "https://".toList cs with
  | some rest => !(rest.takeWhile (fun c => !(c == '/' || c == '?' || c == '#'))).isEmpty
  | none =>
    match stripPChars "http://".toList cs with
    | some rest => !(rest.takeWhile (fun c => !(c == '/' || c == '?' || c == '#'))).isEmpty
    | none => false

inductive FieldId
  | source
  | input
  | most_minimal_output
  | expected_output
deriving DecidableEq, Repr

/-- The per-field constraint of the `InputYaml` pydantic model. -/
def fieldOk (d : InputYamlData) : FieldId → Bool
  | .source =>
    match d.source with
    | none => false
    | some s => isHttpUrl s.toList
  | .input =>
    match d.input with
    | none => false
    | some s => s = "error.log"
  | .most_minimal_output =>
    match d.most_minimal_output with
    | none => false
    | some s => 1 ≤ s.length
  | .expected_output =>
    match d.expected_output with
    | none => false
    | some s => 1 ≤ s.length

/-- `InputYaml.model_validate`: every field is checked and all violated
fields are collected (pydantic's `ValidationError` carries one entry per
violated field). -/
def model_validate (d : InputYamlData) : List FieldId :=
  [FieldId.source, FieldId.input, FieldId.most_minimal_output,
    FieldId.expected_output].filter (fun f => !fieldOk d f)

inductive ValidationMsg
  | ok
  | schemaErrors (fields : List FieldId)
  | readError
deriving DecidableEq, Repr

/-- The embedded `validate_input_yml`; `none` models a file that cannot be
read or parsed (the generic `except` branch). -/
def validate_input_yml (data : Option InputYamlData) : Bool × ValidationMsg :=
  match data with
  | none => (false, ValidationMsg.readError)
  | some d =>
    match model_validate d with
    | [] => (true, ValidationMsg.ok)
    | errs => (false, ValidationMsg.schemaErrors errs)

theorem validate_input_yml_true_iff (d : InputYamlData) :
    (validate_input_yml (some d)).1 = true ↔ model_validate d = [] := by
  rcases h : model_validate d with _ | ⟨e, errs⟩
  · simp [validate_input_yml, h]
  · simp [validate_input_yml, h]

theorem mem_model_validate (d : InputYamlData) (f : FieldId) :
    f ∈ model_validate d ↔ fieldOk d f = false := by
  have hmem : f ∈ [FieldId.source, FieldId.input, FieldId.most_minimal_output,
      FieldId.expected_output] := by
    cases f <;> simp
  simp [model_validate, List.mem_filter, hmem]

theorem model_validate_eq_nil_iff (d : InputYamlData) :
    model_validate d = [] ↔ ∀ f, fieldOk d f = true := by
  rw [List.eq_nil_iff_forall_not_mem]
  constructor
  · intro h f
    have := h f
    rw [mem_model_validate] at this
    simpa using this
  · intro h f hf
    rw [mem_model_validate] at hf
    rw [h f] at hf
    cases hf

/-- C7: `validate_input_yml` reports valid exactly when the loaded data
satisfies all four constraints conjunctively (`source` a well-formed
absolute http/https URL, `input` exactly the literal `error.log`, both
output fields of length at least 1 — no trimming, so whitespace-only
strings pass); an unreadable file is invalid; and the error message lists
every violated field, not just the first. -/
theorem validate_input_yml_spec_C7 (d : InputYamlData) :
    ((validate_input_yml (some d)).1 = true ↔
       (∃ s, d.source = some s ∧ isHttpUrl s.toList = true)
     ∧ d.input = some "error.log"
     ∧ (∃ s, d.most_minimal_output = some s ∧ 1 ≤ s.length)
     ∧ (∃ s, d.expected_output = some s ∧ 1 ≤ s.length))
  ∧ (∀ f : FieldId, f ∈ model_validate d ↔ fieldOk d f = false)
  ∧ (model_validate d ≠ [] →
       (validate_input_yml (some d)).2 = ValidationMsg.schemaErrors (model_validate d))
  ∧ (validate_input_yml none).1 = false := by
  refine ⟨?_, mem_model_validate d, ?_, rfl⟩
  · rw [validate_input_yml_true_iff, model_validate_eq_nil_iff]
    constructor
    · intro h
      refine ⟨?_, ?_, ?_, ?_⟩
      · have := h FieldId.source
        rcases hs : d.source with _ | s
        · rw [fieldOk, hs] at this; cases this
        · rw [fieldOk, hs] at this; exact ⟨s, rfl, this⟩
      · have := h FieldId.input
        rcases hs : d.input with _ | s
        · rw [fieldOk, hs] at this; cases this
        · rw [fieldOk, hs] at this; simpa using this
      · have := h FieldId.most_minimal_output
        rcases hs : d.most_minimal_output with _ | s
        · rw [fieldOk, hs] at this; cases this
        · rw [fieldOk, hs] at this; exact ⟨s, rfl, by simpa using this⟩
      · have := h FieldId.expected_output
        rcases hs : d.expected_output with _ | s
        · rw [fieldOk, hs] at this; cases this
        · rw [fieldOk, hs] at this; exact ⟨s, rfl, by simpa using this⟩
    · rintro ⟨⟨s1, h1, h1'⟩, h2, ⟨s3, h3, h3'⟩, ⟨s4, h4, h4'⟩⟩ f
      cases f
      · rw [fieldOk, h1]; exact h1'
      · rw [fieldOk, h2]; simp
      · rw [fieldOk, h3]; simpa using h3'
      · rw [fieldOk, h4]; simpa using h4'
  · intro hne
    rcases h : model_validate d with _ | ⟨e, errs⟩
    · exact absurd h hne
    · simp [validate_input_yml, h]

theorem validate_input_yml_spec_C7_witness :
    (validate_input_yml (some ⟨some "https://github.com/conda-forge/a/pull/1",
        some "error.log", some " ", some "\t"⟩)).1 = true
  ∧ (validate_input_yml (some ⟨some "not-a-url", some "error.log",
        some "", some "y"⟩)).2 =
      ValidationMsg.schemaErrors
        (model_validate ⟨some "not-a-url", some "error.log", some "", some "y"⟩)
  ∧ FieldId.source ∈
      model_validate ⟨some "not-a-url", some "error.log", some "", some "y"⟩
  ∧ FieldId.most_minimal_output ∈
      model_validate ⟨some "not-a-url", some "error.log", some "", some "y"⟩ :=
  ⟨(validate_input_yml_spec_C7 _).1.mpr
      ⟨⟨_, rfl, by decide⟩, rfl, ⟨_, rfl, by decide⟩, ⟨_, rfl, by decide⟩⟩,
   (validate_input_yml_spec_C7 _).2.2.1 (by decide),
   ((validate_input_yml_spec_C7 _).2.1 FieldId.source).mpr (by decide),
   ((validate_input_yml_spec_C7 _).2.1 FieldId.most_minimal_output).mpr (by decide)⟩

/-! ## The writer stub and the round-trip with the validator
(cli.py lines 100-141, validate.py lines 11-23) -/

/-- The `input.yml` text written by `create_corpus_entry`, verbatim from
the f-string at cli.py lines 132-138. -/
def input_yml_stub_text (pr_url : String) : String :=
  "source: " ++ pr_url ++ "\n" ++
  "input: error.log\n" ++
  "most_minimal_output: |\n" ++
  "  # TODO: Fill in the minimal error message\n" ++
  "expected_output: |\n" ++
  "  # TODO: Fill in the expected parsed output\n"

/-- Modelled from `yaml.safe_load` (an external library) applied to
`input_yml_stub_text` for a plain-scalar PR URL: the mapping has the four
keys, and each `|` block scalar yields its single indented line with a
trailing newline. -/
def parsed_stub (pr_url : String) : InputYamlData :=
  ⟨some pr_url, some "error.log",
   some "# TODO: Fill in the minimal error message\n",
   some "# TODO: Fill in the expected parsed output\n"⟩

/-- C6 counterexample: the untouched stub freshly generated by
`create_corpus_entry` for a well-formed PR URL PASSES the metadata
validator — the TODO placeholder text is non-empty, so the `min_length=1`
check accepts it — contradicting the claim that the stub fails validation
until hand-edited. -/
theorem untouched_stub_passes_validation_C6 :
    (validate_input_yml (some (parsed_stub
        "https://github.com/conda-forge/nomad-feedstock/pull/52"))).1 = true := by
  decide

/-- C6 amended: round-trip of writer and validator — an `input.yml` stub
freshly generated by `create_corpus_entry` with a well-formed PR URL as
source passes the validator even untouched (the non-empty TODO placeholder
satisfies the pure length check — the latent gap the spec itself notes),
and the same entry with hand-filled non-empty `most_minimal_output` and
`expected_output` passes as well. -/
theorem corpus_roundtrip_validation_C6 (pr_url mmo eo : String)
    (hurl : isHttpUrl pr_url.toList = true)
    (hm : 1 ≤ mmo.length) (he : 1 ≤ eo.length) :
    (validate_input_yml (some (parsed_stub pr_url))).1 = true
  ∧ (validate_input_yml
      (some ⟨some pr_url, some "error.log", some mmo, some eo⟩)).1 = true := by
  constructor
  · rw [validate_input_yml_true_iff, model_validate_eq_nil_iff]
    intro f
    cases f
    · simpa [fieldOk, parsed_stub] using hurl
    · simp [fieldOk, parsed_stub]
    · simp only [fieldOk, parsed_stub]
      decide
    · simp only [fieldOk, parsed_stub]
      decide
  · rw [validate_input_yml_true_iff, model_validate_eq_nil_iff]
    intro f
    cases f
    · simpa [fieldOk] using hurl
    · simp [fieldOk]
    · simpa [fieldOk] using hm
    · simpa [fieldOk] using he

theorem corpus_roundtrip_validation_C6_witness :
    (validate_input_yml (some (parsed_stub
        "https://github.com/conda-forge/nomad-feedstock/pull/52"))).1 = true
  ∧ (validate_input_yml (some ⟨
        some "https://github.com/conda-forge/nomad-feedstock/pull/52",
        some "error.log",
        some "ld: undefined reference to foo",
        some "linker error: undefined reference to foo in nomad.o"⟩)).1 = true :=
  corpus_roundtrip_validation_C6 _ _ _ (by decide) (by decide) (by decide)

/-! ## The validator CLI pipeline (validate.py lines 48-81)

`main` exits 1 when the corpus root is missing; warns and exits 0 when no
`input.yml` files are found; otherwise validates every discovered file in
sorted path order, collects `(relative_path, message)` for each invalid
one, and exits 1 printing all of them, or exits 0 reporting the count.
The filesystem is modelled by whether the root exists and the list of
discovered `input.yml` files — each a path (relative to the corpus parent)
with its parsed content (`none` when unreadable). -/

/-- Lexicographic order on code points, modelling `sorted(...)` over the
discovered paths. -/
def charListLe : List Char → List Char → Bool
  | [], _ => true
  | _ :: _, [] => false
  | a :: as, b :: bs =>
    if a.toNat < b.toNat then true
    else if b.toNat < a.toNat then false
    else charListLe as bs

theorem charListLe_total : ∀ a b : List Char,
    charListLe a b = true ∨ charListLe b a = true := by
  intro a
  induction a with
  | nil => intro b; exact Or.inl rfl
  | cons x xs ih =>
    intro b
    cases b with
    | nil => exact Or.inr rfl
    | cons y ys =>
      rcases Nat.lt_trichotomy x.toNat y.toNat with h | h | h
      · exact Or.inl (by simp [charListLe, h])
      · have h1 : ¬ x.toNat < y.toNat := by omega
        have h2 : ¬ y.toNat < x.toNat := by omega
        rcases ih ys with hl | hr
        · exact Or.inl (by simp [charListLe, h1, h2, hl])
        · exact Or.inr (by simp [charListLe, h1, h2, h, hr])
      · exact Or.inr (by simp [charListLe, h])

theorem charListLe_trans : ∀ a b c : List Char,
    charListLe a b = true → charListLe b c = true → charListLe a c = true := by
  intro a
  induction a with
  | nil => intro b c _ _; rfl
  | cons x xs ih =>
    intro b c h1 h2
    cases b with
    | nil => simp [charListLe] at h1
    | cons y ys =>
      cases c with
      | nil => simp [charListLe] at h2
      | cons z zs =>
        simp only [charListLe] at h1 h2 ⊢
        by_cases hxy : x.toNat < y.toNat
        · by_cases hyz : y.toNat < z.toNat
          · simp [show x.toNat < z.toNat by omega]
          · by_cases hzy : z.toNat < y.toNat
            · simp [hyz, hzy] at h2
            · simp [show x.toNat < z.toNat by omega]
        · by_cases hyx : y.toNat < x.toNat
          · simp [hxy, hyx] at h1
          · by_cases hyz : y.toNat < z.toNat
            · simp [show x.toNat < z.toNat by omega]
            · by_cases hzy : z.toNat < y.toNat
              · simp [hyz, hzy] at h2
              · have hxz : ¬ x.toNat < z.toNat := by omega
                have hzx : ¬ z.toNat < x.toNat := by omega
                simp only [if_neg hxy, if_neg hyx] at h1
                simp only [if_neg hyz, if_neg hzy] at h2
                simp only [if_neg hxz, if_neg hzx]
                exact ih ys zs h1 h2

structure CorpusFS where
  rootExists : Bool
  files : List (List Char × Option InputYamlData)

/-- The order used by `sorted(input_files)`, lifted to discovered files. -/
def pathRel (a b : List Char × Option InputYamlData) : Prop :=
  charListLe a.1 b.1 = true

instance : DecidableRel pathRel := fun a b =>
  instDecidableEqBool (charListLe a.1 b.1) true

instance : IsTotal (List Char × Option InputYamlData) pathRel :=
  ⟨fun a b => charListLe_total a.1 b.1⟩

instance : IsTrans (List Char × Option InputYamlData) pathRel :=
  ⟨fun a b c => charListLe_trans a.1 b.1 c.1⟩

/-- The error-collection loop: one `(relative_path, message)` report per
file that fails `validate_input_yml`, in traversal order. -/
def failReports (l : List (List Char × Option InputYamlData)) :
    List (List Char × ValidationMsg) :=
  l.filterMap fun pd =>
    match validate_input_yml pd.2 with
    | (true, _) => none
    | (false, msg) => some (pd.1, msg)

structure RunResult where
  exitCode : Nat
  failing : List (List Char × ValidationMsg)
  warnedEmpty : Bool
  validatedCount : Option Nat
deriving DecidableEq, Repr

/-- The embedded `main` of validate.py. -/
def validator_main (fs : CorpusFS) : RunResult :=
  if fs.rootExists = false then ⟨1, [], false, none⟩
  else if fs.files = [] then ⟨0, [], true, none⟩
  else
    let errors := failReports (List.insertionSort pathRel fs.files)
    if errors = [] then ⟨0, [], false, some fs.files.length⟩
    else ⟨1, errors, false, none⟩

theorem failReports_eq_nil_iff (l : List (List Char × Option InputYamlData)) :
    failReports l = [] ↔ ∀ pd ∈ l, (validate_input_yml pd.2).1 = true := by
  rw [failReports, List.filterMap_eq_nil_iff]
  refine forall₂_congr (fun pd _ => ?_)
  rcases hv : validate_input_yml pd.2 with ⟨b, m⟩
  cases b <;> simp [hv]

theorem mem_failReports {l : List (List Char × Option InputYamlData)}
    {p : List Char} {d : Option InputYamlData}
    (h : (p, d) ∈ l) (hf : (validate_input_yml d).1 = false) :
    (p, (validate_input_yml d).2) ∈ failReports l := by
  rw [failReports, List.mem_filterMap]
  refine ⟨(p, d), h, ?_⟩
  rcases hv : validate_input_yml d with ⟨b, m⟩
  cases b
  · simp [hv]
  · rw [hv] at hf
    cases hf

theorem pairwise_failReports {l : List (List Char × Option InputYamlData)}
    (h : List.Pairwise pathRel l) :
    List.Pairwise (fun a b => charListLe a.1 b.1 = true) (failReports l) := by
  rw [failReports]
  refine List.Pairwise.filterMap _ ?_ h
  intro a a' hrel b hb b' hb'
  have hb1 : b.1 = a.1 := by
    rcases hv : validate_input_yml a.2 with ⟨bb, m⟩
    rw [Option.mem_def] at hb
    cases bb <;> rw [hv] at hb
    · simp at hb
      rw [← hb]
    · cases hb
  have hb1' : b'.1 = a'.1 := by
    rcases hv : validate_input_yml a'.2 with ⟨bb, m⟩
    rw [Option.mem_def] at hb'
    cases bb <;> rw [hv] at hb'
    · simp at hb'
      rw [← hb']
    · cases hb'
  rw [hb1, hb1']
  exact hrel

/-- C8: the validator pipeline exits 1 when the corpus root does not
exist; exits 0 with a warning when the root exists but no `input.yml` was
found; given an existing root, exits 0 exactly when every discovered file
validates; reports every failing entry's path together with its message
(the report being in sorted path order); and on full success reports the
count of validated files. -/
theorem validator_main_spec_C8 (fs : CorpusFS) :
    (fs.rootExists = false → (validator_main fs).exitCode = 1)
  ∧ (fs.rootExists = true → fs.files = [] →
       (validator_main fs).exitCode = 0 ∧ (validator_main fs).warnedEmpty = true)
  ∧ (fs.rootExists = true →
       ((validator_main fs).exitCode = 0 ↔
         ∀ pd ∈ fs.files, (validate_input_yml pd.2).1 = true))
  ∧ (fs.rootExists = true → ∀ p d, (p, d) ∈ fs.files →
       (validate_input_yml d).1 = false →
       (p, (validate_input_yml d).2) ∈ (validator_main fs).failing)
  ∧ (fs.rootExists = true → fs.files ≠ [] →
       (∀ pd ∈ fs.files, (validate_input_yml pd.2).1 = true) →
       (validator_main fs).exitCode = 0
         ∧ (validator_main fs).validatedCount = some fs.files.length)
  ∧ List.Pairwise (fun a b => charListLe a.1 b.1 = true)
      (validator_main fs).failing := by
  have hperm := List.perm_insertionSort pathRel fs.files
  have hmem : ∀ x, x ∈ List.insertionSort pathRel fs.files ↔ x ∈ fs.files :=
    fun x => hperm.mem_iff
  have hnil :
      failReports (List.insertionSort pathRel fs.files) = [] ↔
        ∀ pd ∈ fs.files, (validate_input_yml pd.2).1 = true := by
    rw [failReports_eq_nil_iff]
    exact ⟨fun h pd hpd => h pd ((hmem pd).mpr hpd),
      fun h pd hpd => h pd ((hmem pd).mp hpd)⟩
  rcases hroot : fs.rootExists with _ | _
  · refine ⟨fun _ => by simp [validator_main, hroot], ?_, ?_, ?_, ?_, ?_⟩
    · intro h; cases h
    · intro h; cases h
    · intro h; cases h
    · intro h; cases h
    · simp [validator_main, hroot]
  · rcases hfiles : fs.files with _ | ⟨f0, frest⟩
    · refine ⟨fun h => (absurd h (by simp [hroot])), ?_, ?_, ?_, ?_, ?_⟩
      · intro _ _
        constructor <;> simp [validator_main, hroot, hfiles]
      · intro _
        simp [validator_main, hroot, hfiles]
      · intro _ p d hpd _
        simp at hpd
      · intro _ hne
        exact absurd rfl hne
      · simp [validator_main, hroot, hfiles]
    · rw [← hfiles]
      have hfne : fs.files ≠ [] := by rw [hfiles]; exact (by simp)
      by_cases herr : failReports (List.insertionSort pathRel fs.files) = []
      · have hall := hnil.mp herr
        refine ⟨fun h => (absurd h (by simp [hroot])), ?_, ?_, ?_, ?_, ?_⟩
        · intro _ h
          exact absurd h hfne
        · intro _
          exact ⟨fun _ => hall, fun _ => by simp [validator_main, hroot, hfne, herr]⟩
        · intro _ p d hpd hfalse
          have := hall (p, d) hpd
          rw [hfalse] at this
          cases this
        · intro _ _ _
          constructor <;> simp [validator_main, hroot, hfne, herr]
        · simp [validator_main, hroot, hfne, herr]
      · have hnotall : ¬ ∀ pd ∈ fs.files, (validate_input_yml pd.2).1 = true :=
          fun hall => herr (hnil.mpr hall)
        have hfailing : (validator_main fs).failing =
            failReports (List.insertionSort pathRel fs.files) := by
          simp [validator_main, hroot, hfne, herr]
        refine ⟨fun h => (absurd h (by simp [hroot])), ?_, ?_, ?_, ?_, ?_⟩
        · intro _ h
          exact absurd h hfne
        · intro _
          constructor
          · intro h0
            exfalso
            have : (validator_main fs).exitCode = 1 := by
              simp [validator_main, hroot, hfne, herr]
            rw [this] at h0
            cases h0
          · intro hall
            exact absurd hall hnotall
        · intro _ p d hpd hfalse
          rw [hfailing]
          exact mem_failReports ((hmem (p, d)).mpr hpd) hfalse
        · intro _ _ hall
          exact absurd hall hnotall
        · rw [hfailing]
          exact pairwise_failReports
            (List.sorted_insertionSort pathRel fs.files)

def demoFS : CorpusFS :=
  ⟨true,
   [("corpus/uncategorized/zlib-3-linux_64/input.yml".toList,
     some ⟨some "not-a-url", some "error.log", some "x", some "y"⟩),
    ("corpus/uncategorized/abc-1-linux_64/input.yml".toList,
     some ⟨some "https://github.com/conda-forge/abc-feedstock/pull/1",
       some "error.log", some "x", some "y"⟩)]⟩

theorem validator_main_spec_C8_witness :
    ("corpus/uncategorized/zlib-3-linux_64/input.yml".toList,
        (validate_input_yml (some ⟨some "not-a-url", some "error.log",
          some "x", some "y"⟩)).2) ∈ (validator_main demoFS).failing
  ∧ ((validator_main ⟨true, []⟩).exitCode = 0
      ∧ (validator_main ⟨true, []⟩).warnedEmpty = true)
  ∧ (validator_main ⟨false, []⟩).exitCode = 1 :=
  ⟨(validator_main_spec_C8 demoFS).2.2.2.1 rfl _ _ (by decide) (by decide),
   (validator_main_spec_C8 ⟨true, []⟩).2.1 rfl rfl,
   (validator_main_spec_C8 ⟨false, []⟩).1 rfl⟩

end CfErrorCorpus
